import Mathlib

/-
Verification of the parallel inverted-index program (tema1.cpp).

A shallow embedding of the concurrency core: the tokenizer (clean_word),
the 26-shard word table and its locked update (add_table), the per-file
local aggregate built by a mapper and its merge loop, the work queue
drained under a lock, and the reducer that sorts each owned shard and
emits one artifact per letter.  Machine ints are modelled as Nat/Int
(file ids are nonnegative and small; the letter index word[0]-97 is an
Int because the C computation can be negative before the range check).
-/

namespace InvIndex

/-- A word as the C++ std::string: a list of characters. -/
abbrev Word := List Char

/-- The C isalpha predicate in the default locale: A-Z or a-z. -/
def cppIsAlpha (c : Char) : Bool :=
  decide ((65 ≤ c.toNat ∧ c.toNat ≤ 90) ∨ (97 ≤ c.toNat ∧ c.toNat ≤ 122))

/-- The C tolower on ASCII: add 32 to an upper-case letter, else identity. -/
def cppToLower (c : Char) : Char :=
  if 65 ≤ c.toNat ∧ c.toNat ≤ 90 then Char.ofNat (c.toNat + 32) else c

/-- clean_word (tema1.cpp lines 44-49): erase every non-alphabetic
character, then lowercase what remains. -/
def clean_word (w : Word) : Word :=
  (w.filter cppIsAlpha).map cppToLower

/-- The C++ expression word[0] - 'a' as a signed int (mapper line 108);
-1 stands for the out-of-domain empty word, which the mapper never
indexes because of the emptiness check on line 107. -/
def letterIdx (w : Word) : Int :=
  match w with
  | [] => -1
  | c :: _ => (c.toNat : Int) - 97

/-- The shard selected by a word, if the range check of mapper line 109
(0 <= letter_index < 26) passes. -/
def shardOf (w : Word) : Option Nat :=
  if 0 ≤ letterIdx w ∧ letterIdx w < 26 then some (letterIdx w).toNat else none

/-- WordEntry (tema1.cpp lines 14-17): a word and the list of 1-based
ids of the files containing it. -/
structure WordEntry where
  word : Word
  file_ids : List Nat
deriving DecidableEq

/-- The std::lower_bound insertion of add_table lines 66-69 on a sorted
duplicate-free list: walk to the first element that is not below x;
insert x there unless it is already present. -/
def insertSorted (l : List Nat) (x : Nat) : List Nat :=
  match l with
  | [] => [x]
  | y :: ys =>
    if x < y then x :: y :: ys
    else if x = y then y :: ys
    else y :: insertSorted ys x

/-- One shard of the table: the contents of the std::unordered_map from
word to WordEntry, as an association list with distinct keys. -/
abbrev Shard := List (Word × WordEntry)

/-- table.find(word) on a shard. -/
def lookupT : Shard → Word → Option WordEntry
  | [], _ => none
  | p :: t, w => if p.1 = w then some p.2 else lookupT t w

/-- add_table (tema1.cpp lines 51-72), the update done under the shard
lock: if the word is absent insert the entry {word, {file_id + 1}};
otherwise insert file_id + 1 into its sorted id list if absent.  The
position of a fresh key inside the unordered_map is unspecified in C++;
the model appends, and every emitted result is proved independent of
this position. -/
def add_table (t : Shard) (w : Word) (file_id : Nat) : Shard :=
  match lookupT t w with
  | none => t ++ [(w, ⟨w, [file_id + 1]⟩)]
  | some _ =>
    t.map (fun p =>
      if p.1 = w then (p.1, ⟨p.2.word, insertSorted p.2.file_ids (file_id + 1)⟩) else p)

/-- The array results[26] of shards (ThreadData line 27). -/
def Table := Nat → Shard

/-- The table before any mapper runs: every shard empty. -/
def emptyTable : Table := fun _ => []

/-- One merge event: a mapper applies one distinct cleaned word of the
file with 0-based index fid to the shard table (one add_table call,
mapper line 119). -/
structure Ev where
  w : Word
  fid : Nat
deriving DecidableEq

/-- Apply one merge event to the table: route the word to the shard of
its first letter and run add_table there.  A word failing the range
check is never merged (mapper lines 108-111). -/
def applyEvent (t : Table) (e : Ev) : Table :=
  match shardOf e.w with
  | some i => fun j => if j = i then add_table (t j) e.w e.fid else t j
  | none => t

/-- The table produced by a sequence of add_table calls, in the order
the shard locks were acquired. -/
def runTable (evs : List Ev) : Table :=
  evs.foldl applyEvent emptyTable

/-- The nonempty cleaned words of the raw whitespace-split tokens of one
file, in token order (mapper lines 105-107). -/
def fileWords (toks : List Word) : List Word :=
  (toks.map clean_word).filter (fun w => decide (w ≠ []))

/-- The cleaned words that pass the letter range check and hence enter
the local aggregate (mapper lines 108-111). -/
def indexedWords (toks : List Word) : List Word :=
  (fileWords toks).filter (fun w => (shardOf w).isSome)

/-- The merge events a mapper generates for one file: one per distinct
word of the local aggregate (mapper lines 116-121; the aggregate keys
each word once however often it occurs). -/
def fileEvents (fid : Nat) (toks : List Word) : List Ev :=
  (indexedWords toks).dedup.map (fun w => ⟨w, fid⟩)

/-- A manifest entry: the token stream of the file, or none when the
file cannot be opened (mapper lines 95-99 skip such a file). -/
abbrev Manifest := List (Option (List Word))

/-- All merge events of the files of a manifest, 0-based file indices
starting at k (main lines 204-209 enqueue positions 0..n-1). -/
def manifestEventsFrom : Nat → Manifest → List Ev
  | _, [] => []
  | fid, f? :: rest =>
    (match f? with
     | none => []
     | some toks => fileEvents fid toks) ++ manifestEventsFrom (fid + 1) rest

/-- All merge events of a manifest, in manifest order. -/
def manifestEvents (m : Manifest) : List Ev :=
  manifestEventsFrom 0 m

/-- std::string operator< : lexicographic comparison by character code. -/
def lexLt : Word → Word → Bool
  | _, [] => false
  | [], _ :: _ => true
  | a :: as, b :: bs =>
    if a.toNat < b.toNat then true
    else if b.toNat < a.toNat then false
    else lexLt as bs

/-- The reducer sort comparator (tema1.cpp lines 155-159): more file ids
first, ties broken by ascending word. -/
def entCmp (a b : WordEntry) : Bool :=
  if a.file_ids.length ≠ b.file_ids.length then decide (a.file_ids.length > b.file_ids.length)
  else lexLt a.word b.word

/-- The weak order induced by the comparator, as std::sort orders the
result: a may precede b iff the comparator does not demand b before a. -/
def entLe (a b : WordEntry) : Prop := entCmp b a = false

instance : DecidableRel entLe :=
  fun a b => decidable_of_iff (entCmp b a = false) Iff.rfl

/-- The shard contents a reducer copies out under the lock (reducer
lines 146-152), as the list of entries. -/
def shardEntries (t : Table) (i : Nat) : List WordEntry :=
  (t i).map Prod.snd

/-- The sorted word list of one shard (reducer lines 155-159). -/
def sortedShard (t : Table) (i : Nat) : List WordEntry :=
  List.insertionSort entLe (shardEntries t i)

/-- The sorted entries of artifact i of letter i for a manifest. -/
def artifact (m : Manifest) (i : Nat) : List WordEntry :=
  sortedShard (runTable (manifestEvents m)) i

/-- std::accumulate of reducer lines 170-173: the space-separated
decimal rendering of the id list. -/
def renderIds (ids : List Nat) : List Char :=
  ids.foldl
    (fun a b => if a.isEmpty then Nat.toDigits 10 b else a ++ ' ' :: Nat.toDigits 10 b) []

/-- One output line (reducer lines 169-173): word:[id1 id2 ...]. -/
def renderEntry (e : WordEntry) : List Char :=
  e.word ++ ':' :: '[' :: (renderIds e.file_ids ++ [']'])

/-- The lines of artifact i as emitted for a table. -/
def outLines (t : Table) (i : Nat) : List (List Char) :=
  (sortedShard t i).map renderEntry

/-- start_index of reducer rank r of R (tema1.cpp line 139). -/
def startIdx (r R : Nat) : Nat := r * 26 / R

/-- end_index of reducer rank r of R (tema1.cpp line 140). -/
def endIdx (r R : Nat) : Nat := min 26 ((r + 1) * 26 / R)

/-- The per-shard loop of the reducer (lines 142-175) with an oracle
sinkOk telling whether the output sink for a letter can be created:
processing starts at letter i with n letters to go; on a sink failure
the function returns at once (the early return of lines 163-167),
emitting nothing further.  The result lists the (letter, sorted
entries) pairs actually emitted. -/
def reducerLoop (t : Table) (sinkOk : Nat → Bool) : Nat → Nat → List (Nat × List WordEntry)
  | _, 0 => []
  | i, n + 1 =>
    if sinkOk i then (i, sortedShard t i) :: reducerLoop t sinkOk (i + 1) n
    else []

/-- The whole shard range of reducer rank r of R. -/
def reducerRun (t : Table) (sinkOk : Nat → Bool) (r R : Nat) : List (Nat × List WordEntry) :=
  reducerLoop t sinkOk (startIdx r R) (endIdx r R - startIdx r R)

/-- One action of the merge loop of a mapper (lines 116-121): add_table
itself takes and releases the shard lock around each single-word
update (lines 54 and 71). -/
inductive MAct where
  | take : Nat → MAct
  | upd : Word → Nat → MAct
  | release : Nat → MAct
deriving DecidableEq

/-- The letters of the buckets of the local aggregate of one file. -/
def bucketLetters (toks : List Word) : List Nat :=
  ((indexedWords toks).dedup.filterMap shardOf).dedup

/-- The distinct words of the bucket of one letter. -/
def bucketWords (toks : List Word) (i : Nat) : List Word :=
  (indexedWords toks).dedup.filter (fun w => shardOf w = some i)

/-- The shard-lock trace of the merge loop of mapper lines 116-121 for
one file: for each bucket, for each distinct word in it, one add_table
call, i.e. one lock acquisition, one single-word update, one release. -/
def mergeTrace (toks : List Word) : List MAct :=
  (bucketLetters toks).flatMap (fun i =>
    (bucketWords toks i).flatMap (fun w => [MAct.take i, MAct.upd w i, MAct.release i]))

/-- How many times a trace acquires the lock of shard i. -/
def lockCount (tr : List MAct) (i : Nat) : Nat :=
  tr.countP (fun a => a = MAct.take i)

/-- The state of the work queue together with the log of performed
dequeues, most recent first; each log entry is (worker, file index). -/
structure QState where
  q : List Nat
  done : List (Nat × Nat)
deriving DecidableEq

/-- One atomic dequeue under the queue lock (mapper lines 83-91): a
worker removes the head of the nonempty queue; an empty queue admits no
step (the worker leaves the loop, line 93). -/
inductive QStep : QState → QState → Prop
  | dequeue (wk x : Nat) (q : List Nat) (d : List (Nat × Nat)) :
      QStep ⟨x :: q, d⟩ ⟨q, (wk, x) :: d⟩

/-- The queue as populated by main lines 204-209: file indices
0..n-1 in manifest order, nothing dequeued yet. -/
def initQ (n : Nat) : QState := ⟨List.range n, []⟩

/-- Any interleaving of dequeues by the mapper pool. -/
def QReach : QState → QState → Prop := Relation.ReflTransGen QStep

/-- The strict order in which the comparator demands a before b. -/
def entLt (a b : WordEntry) : Prop := entCmp a b = true

instance : DecidableRel entLt :=
  fun a b => decidable_of_iff (entCmp a b = true) Iff.rfl

/-- The 1-based file ids a list of merge events contributes to word w,
in event order. -/
def evIds (evs : List Ev) (w : Word) : List Nat :=
  (evs.filter (fun e => decide (e.w = w))).map (fun e => e.fid + 1)

/-- The internal well-formedness of shard i: distinct keys; each stored
entry repeats its key as its word; every key belongs to this shard;
every id list is nonempty and strictly increasing. -/
def ShardInv (i : Nat) (t : Shard) : Prop :=
  (t.map Prod.fst).Nodup ∧
    ∀ p ∈ t, p.2.word = p.1 ∧ shardOf p.1 = some i ∧
      p.2.file_ids ≠ [] ∧ List.Pairwise (· < ·) p.2.file_ids

/-- Well-formedness of the whole table. -/
def TableInv (t : Table) : Prop := ∀ i, ShardInv i (t i)

/-- The id lists of every entry of a shard are strictly increasing. -/
def IdsSorted (t : Shard) : Prop :=
  ∀ p ∈ t, List.Pairwise (· < ·) p.2.file_ids

/-- Key consistency of the whole table: each entry repeats its key as
its word, and each key sits in the shard of its first letter. -/
def KeyInv (t : Table) : Prop :=
  ∀ i, ∀ p ∈ t i, p.2.word = p.1 ∧
    ∃ c rest, p.1 = c :: rest ∧ c.toNat = 97 + i ∧ i < 26

/-- w occurs, after cleaning, in a successfully opened file of m. -/
def appearsIn (m : Manifest) (w : Word) : Prop :=
  ∃ (fid : Nat) (toks : List Word), m[fid]? = some (some toks) ∧ w ∈ fileWords toks

lemma char_toNat_inj {a b : Char} (h : a.toNat = b.toNat) : a = b :=
  Char.ext (UInt32.toNat.inj h)

lemma toNat_cppToLower_of_alpha (c : Char) (h : cppIsAlpha c = true) :
    97 ≤ (cppToLower c).toNat ∧ (cppToLower c).toNat ≤ 122 := by
  unfold cppIsAlpha at h
  rw [decide_eq_true_iff] at h
  unfold cppToLower
  rcases h with h | h
  · rw [if_pos h]
    obtain ⟨h1, h2⟩ := h
    generalize c.toNat = n at h1 h2
    interval_cases n <;> exact ⟨by decide, by decide⟩
  · rw [if_neg (by omega)]
    exact h

lemma mem_clean_word_toNat {w : Word} {c : Char} (h : c ∈ clean_word w) :
    97 ≤ c.toNat ∧ c.toNat ≤ 122 := by
  unfold clean_word at h
  rw [List.mem_map] at h
  obtain ⟨c', hc', rfl⟩ := h
  exact toNat_cppToLower_of_alpha c' (List.of_mem_filter hc')

lemma letterIdx_cons (c : Char) (rest : Word) :
    letterIdx (c :: rest) = (c.toNat : Int) - 97 := rfl

lemma shardOf_cons (c : Char) (rest : Word) (h1 : 97 ≤ c.toNat) (h2 : c.toNat ≤ 122) :
    shardOf (c :: rest) = some (c.toNat - 97) := by
  unfold shardOf
  rw [letterIdx_cons, if_pos (by omega)]
  congr 1
  omega

lemma fileWords_shape {toks : List Word} {w : Word} (h : w ∈ fileWords toks) :
    w ≠ [] ∧ ∀ c ∈ w, 97 ≤ c.toNat ∧ c.toNat ≤ 122 := by
  unfold fileWords at h
  rw [List.mem_filter] at h
  obtain ⟨hmap, hne⟩ := h
  rw [List.mem_map] at hmap
  obtain ⟨tok, _, rfl⟩ := hmap
  exact ⟨by simpa using hne, fun c hc => mem_clean_word_toNat hc⟩

lemma shardOf_of_fileWords {toks : List Word} {w : Word} (h : w ∈ fileWords toks) :
    ∃ i, i < 26 ∧ shardOf w = some i := by
  obtain ⟨hne, hchars⟩ := fileWords_shape h
  cases w with
  | nil => exact absurd rfl hne
  | cons c rest =>
    have hc := hchars c (by simp)
    exact ⟨c.toNat - 97, by omega, shardOf_cons c rest hc.1 hc.2⟩

lemma indexedWords_eq_fileWords (toks : List Word) :
    indexedWords toks = fileWords toks := by
  unfold indexedWords
  apply List.filter_eq_self.mpr
  intro w hw
  obtain ⟨i, _, hs⟩ := shardOf_of_fileWords hw
  simp [hs]

lemma lexLt_asymm (a : Word) : ∀ b, lexLt a b = true → lexLt b a = false := by
  induction a with
  | nil =>
    intro b h
    cases b <;> simp_all [lexLt]
  | cons x xs ih =>
    intro b h
    cases b with
    | nil => simp [lexLt] at h
    | cons y ys =>
      simp only [lexLt] at h ⊢
      by_cases h1 : x.toNat < y.toNat
      · rw [if_neg (show ¬ y.toNat < x.toNat by omega), if_pos h1]
      · by_cases h2 : y.toNat < x.toNat
        · rw [if_neg h1, if_pos h2] at h
          exact absurd h (by simp)
        · rw [if_neg h1, if_neg h2] at h
          rw [if_neg h2, if_neg h1]
          exact ih ys h

lemma lexLt_connex (a : Word) : ∀ b, lexLt a b = false → lexLt b a = false → a = b := by
  induction a with
  | nil =>
    intro b h1 h2
    cases b with
    | nil => rfl
    | cons y ys => simp [lexLt] at h1
  | cons x xs ih =>
    intro b h1 h2
    cases b with
    | nil => simp [lexLt] at h2
    | cons y ys =>
      simp only [lexLt] at h1 h2
      by_cases hxy : x.toNat < y.toNat
      · rw [if_pos hxy] at h1
        exact absurd h1 (by simp)
      · by_cases hyx : y.toNat < x.toNat
        · rw [if_pos hyx] at h2
          exact absurd h2 (by simp)
        · rw [if_neg hxy, if_neg hyx] at h1
          rw [if_neg hyx, if_neg hxy] at h2
          have hc : x = y := char_toNat_inj (by omega)
          rw [hc, ih ys h1 h2]

lemma lexLt_trans (a : Word) : ∀ b c, lexLt a b = true → lexLt b c = true → lexLt a c = true := by
  induction a with
  | nil =>
    intro b c h1 h2
    cases c with
    | nil =>
      cases b with
      | nil => simp [lexLt] at h1
      | cons y ys => simp [lexLt] at h2
    | cons z zs => simp [lexLt]
  | cons x xs ih =>
    intro b c h1 h2
    cases b with
    | nil => simp [lexLt] at h1
    | cons y ys =>
      cases c with
      | nil => simp [lexLt] at h2
      | cons z zs =>
        simp only [lexLt] at h1 h2 ⊢
        by_cases hxy : x.toNat < y.toNat
        · by_cases hyz : y.toNat < z.toNat
          · rw [if_pos (show x.toNat < z.toNat by omega)]
          · by_cases hzy : z.toNat < y.toNat
            · rw [if_neg hyz, if_pos hzy] at h2
              exact absurd h2 (by simp)
            · rw [if_pos (show x.toNat < z.toNat by omega)]
        · by_cases hyx : y.toNat < x.toNat
          · rw [if_neg hxy, if_pos hyx] at h1
            exact absurd h1 (by simp)
          · rw [if_neg hxy, if_neg hyx] at h1
            by_cases hyz : y.toNat < z.toNat
            · rw [if_pos (show x.toNat < z.toNat by omega)]
            · by_cases hzy : z.toNat < y.toNat
              · rw [if_neg hyz, if_pos hzy] at h2
                exact absurd h2 (by simp)
              · rw [if_neg hyz, if_neg hzy] at h2
                rw [if_neg (show ¬ x.toNat < z.toNat by omega),
                  if_neg (show ¬ z.toNat < x.toNat by omega)]
                exact ih ys zs h1 h2

lemma insertSorted_ne_nil (l : List Nat) (x : Nat) : insertSorted l x ≠ [] := by
  cases l with
  | nil => simp [insertSorted]
  | cons y ys =>
    unfold insertSorted
    split_ifs <;> simp

lemma mem_insertSorted (l : List Nat) (x y : Nat) :
    y ∈ insertSorted l x ↔ y = x ∨ y ∈ l := by
  induction l with
  | nil => simp [insertSorted]
  | cons z zs ih =>
    unfold insertSorted
    by_cases h1 : x < z
    · rw [if_pos h1]
      simp only [List.mem_cons]
    · by_cases h2 : x = z
      · subst h2
        rw [if_neg h1, if_pos rfl]
        simp only [List.mem_cons]
        tauto
      · rw [if_neg h1, if_neg h2]
        simp only [List.mem_cons, ih]
        tauto

lemma pairwise_insertSorted {l : List Nat} (x : Nat) (h : List.Pairwise (· < ·) l) :
    List.Pairwise (· < ·) (insertSorted l x) := by
  induction l with
  | nil => simp [insertSorted]
  | cons z zs ih =>
    rw [List.pairwise_cons] at h
    obtain ⟨hz, hzs⟩ := h
    unfold insertSorted
    by_cases h1 : x < z
    · rw [if_pos h1]
      refine List.Pairwise.cons ?_ (List.Pairwise.cons hz hzs)
      intro y hy
      rcases List.mem_cons.mp hy with rfl | hy
      · exact h1
      · exact Nat.lt_trans h1 (hz y hy)
    · by_cases h2 : x = z
      · rw [if_neg h1, if_pos h2]
        exact List.Pairwise.cons hz hzs
      · rw [if_neg h1, if_neg h2]
        refine List.Pairwise.cons ?_ (ih hzs)
        intro y hy
        rcases (mem_insertSorted zs x y).mp hy with rfl | hy
        · omega
        · exact hz y hy

lemma mem_foldl_insertSorted (l : List Nat) (init : List Nat) (y : Nat) :
    y ∈ l.foldl insertSorted init ↔ y ∈ init ∨ y ∈ l := by
  induction l generalizing init with
  | nil => simp
  | cons z zs ih =>
    rw [List.foldl_cons, ih, mem_insertSorted]
    simp only [List.mem_cons]
    tauto

lemma pairwise_foldl_insertSorted (l : List Nat) {init : List Nat}
    (h : List.Pairwise (· < ·) init) :
    List.Pairwise (· < ·) (l.foldl insertSorted init) := by
  induction l generalizing init with
  | nil => exact h
  | cons z zs ih => exact ih (pairwise_insertSorted z h)

lemma nodup_foldl_insertSorted (l : List Nat) :
    (l.foldl insertSorted []).Nodup :=
  (pairwise_foldl_insertSorted l List.Pairwise.nil).imp Nat.ne_of_lt

lemma foldl_insertSorted_eq_of_perm {l₁ l₂ : List Nat} (hp : l₁.Perm l₂) :
    l₁.foldl insertSorted [] = l₂.foldl insertSorted [] := by
  have s₁ := pairwise_foldl_insertSorted l₁ (List.Pairwise.nil)
  have s₂ := pairwise_foldl_insertSorted l₂ (List.Pairwise.nil)
  have hperm := (List.perm_ext_iff_of_nodup (nodup_foldl_insertSorted l₁)
    (nodup_foldl_insertSorted l₂)).mpr (fun y => by
      rw [mem_foldl_insertSorted, mem_foldl_insertSorted, hp.mem_iff])
  haveI : IsAntisymm Nat (· < ·) := ⟨fun a b h1 h2 => absurd h1 (Nat.lt_asymm h2)⟩
  exact List.eq_of_perm_of_sorted hperm s₁ s₂

lemma lookupT_append_left {t : Shard} {w : Word} {e : WordEntry}
    (h : lookupT t w = some e) (s : Shard) : lookupT (t ++ s) w = some e := by
  induction t with
  | nil => simp [lookupT] at h
  | cons p t ih =>
    by_cases hp : p.1 = w
    · rw [lookupT, if_pos hp] at h
      rw [List.cons_append, lookupT, if_pos hp]
      exact h
    · rw [lookupT, if_neg hp] at h
      rw [List.cons_append, lookupT, if_neg hp]
      exact ih h

lemma lookupT_append_right {t : Shard} {w : Word}
    (h : lookupT t w = none) (s : Shard) : lookupT (t ++ s) w = lookupT s w := by
  induction t with
  | nil => rfl
  | cons p t ih =>
    by_cases hp : p.1 = w
    · rw [lookupT, if_pos hp] at h
      cases h
    · rw [lookupT, if_neg hp] at h
      rw [List.cons_append, lookupT, if_neg hp]
      exact ih h

lemma lookupT_singleton (w w' : Word) (e : WordEntry) :
    lookupT [(w, e)] w' = if w = w' then some e else none := by
  simp [lookupT]

lemma add_table_of_lookup_none {t : Shard} {w : Word} (h : lookupT t w = none)
    (fid : Nat) : add_table t w fid = t ++ [(w, ⟨w, [fid + 1]⟩)] := by
  unfold add_table
  rw [h]

lemma add_table_of_lookup_some {t : Shard} {w : Word} {e : WordEntry}
    (h : lookupT t w = some e) (fid : Nat) :
    add_table t w fid =
      t.map (fun p =>
        if p.1 = w then (p.1, ⟨p.2.word, insertSorted p.2.file_ids (fid + 1)⟩) else p) := by
  unfold add_table
  rw [h]

lemma lookupT_eq_none_iff (t : Shard) (w : Word) :
    lookupT t w = none ↔ w ∉ t.map Prod.fst := by
  induction t with
  | nil => simp [lookupT]
  | cons p t ih =>
    by_cases h : p.1 = w
    · rw [lookupT, if_pos h]
      simp only [List.map_cons, List.mem_cons]
      constructor
      · intro hn
        exact absurd hn (by simp)
      · intro hn
        exact absurd (Or.inl h.symm) hn
    · simp only [lookupT, if_neg h, ih, List.map_cons, List.mem_cons]
      constructor
      · intro hn hmem
        rcases hmem with hmem | hmem
        · exact h hmem.symm
        · exact hn hmem
      · intro hn hmem
        exact hn (Or.inr hmem)

lemma lookupT_mem {t : Shard} {w : Word} {e : WordEntry} (h : lookupT t w = some e) :
    (w, e) ∈ t := by
  induction t with
  | nil => simp [lookupT] at h
  | cons p t ih =>
    by_cases hp : p.1 = w
    · rw [lookupT, if_pos hp] at h
      injection h with h
      refine List.mem_cons.mpr (Or.inl ?_)
      rw [← hp, ← h]
    · rw [lookupT, if_neg hp] at h
      exact List.mem_cons_of_mem p (ih h)

lemma mem_lookupT {t : Shard} (hnd : (t.map Prod.fst).Nodup) {w : Word} {e : WordEntry}
    (h : (w, e) ∈ t) : lookupT t w = some e := by
  induction t with
  | nil => cases h
  | cons p t ih =>
    rw [List.map_cons, List.nodup_cons] at hnd
    rcases List.mem_cons.mp h with heq | h'
    · cases heq.symm
      simp [lookupT]
    · have hw : w ∈ t.map Prod.fst := List.mem_map.mpr ⟨(w, e), h', rfl⟩
      by_cases hp : p.1 = w
      · exact absurd (hp ▸ hw) hnd.1
      · rw [lookupT, if_neg hp]
        exact ih hnd.2 h'

lemma add_table_keys (t : Shard) (w : Word) (fid : Nat) :
    (add_table t w fid).map Prod.fst =
      match lookupT t w with
      | none => t.map Prod.fst ++ [w]
      | some _ => t.map Prod.fst := by
  unfold add_table
  cases h : lookupT t w with
  | none => simp
  | some e =>
    simp only [List.map_map]
    exact List.map_congr_left (fun p _ => by by_cases hp : p.1 = w <;> simp [hp])

lemma lookupT_map_update (t : Shard) (w : Word) (fid : Nat) (w' : Word) :
    lookupT (t.map fun p =>
        if p.1 = w then (p.1, ⟨p.2.word, insertSorted p.2.file_ids (fid + 1)⟩) else p) w' =
      if w' = w then
        (lookupT t w').map (fun q => ⟨q.word, insertSorted q.file_ids (fid + 1)⟩)
      else lookupT t w' := by
  induction t with
  | nil => simp [lookupT]
  | cons p t ih =>
    rw [List.map_cons]
    by_cases hp : p.1 = w
    · rw [if_pos hp]
      by_cases hw : w' = w
      · subst hw
        simp [lookupT, hp]
      · have hne : p.1 ≠ w' := by
          rw [hp]
          exact fun hh => hw hh.symm
        simp [lookupT, hne, ih, hw]
    · rw [if_neg hp]
      by_cases hpw : p.1 = w'
      · have hw : w' ≠ w := fun hh => hp (hpw.trans hh)
        simp [lookupT, hpw, hw]
      · simp [lookupT, hpw, ih]

lemma lookupT_add_self_none {t : Shard} {w : Word} (h : lookupT t w = none)
    (fid : Nat) : lookupT (add_table t w fid) w = some ⟨w, [fid + 1]⟩ := by
  rw [add_table_of_lookup_none h, lookupT_append_right h, lookupT_singleton, if_pos rfl]

lemma lookupT_add_self_some {t : Shard} {w : Word} {e : WordEntry}
    (h : lookupT t w = some e) (fid : Nat) :
    lookupT (add_table t w fid) w = some ⟨e.word, insertSorted e.file_ids (fid + 1)⟩ := by
  rw [add_table_of_lookup_some h, lookupT_map_update, if_pos rfl, h]
  rfl

lemma lookupT_add_ne (t : Shard) (w : Word) (fid : Nat) (w' : Word) (h : w' ≠ w) :
    lookupT (add_table t w fid) w' = lookupT t w' := by
  cases hl : lookupT t w with
  | none =>
    rw [add_table_of_lookup_none hl]
    cases hw' : lookupT t w' with
    | none =>
      rw [lookupT_append_right hw', lookupT_singleton,
        if_neg (fun hh : w = w' => h hh.symm)]
    | some e => rw [lookupT_append_left hw']
  | some e =>
    rw [add_table_of_lookup_some hl, lookupT_map_update, if_neg h]

lemma shardInv_add_table {i : Nat} {t : Shard} (hi : ShardInv i t) {w : Word}
    (hw : shardOf w = some i) (fid : Nat) : ShardInv i (add_table t w fid) := by
  obtain ⟨hnd, hent⟩ := hi
  cases h : lookupT t w with
  | none =>
    rw [add_table_of_lookup_none h]
    constructor
    · rw [List.map_append]
      simp only [List.nodup_append]
      refine ⟨hnd, List.nodup_singleton w, ?_⟩
      intro a ha hb
      rw [List.map_singleton, List.mem_singleton] at hb
      rw [hb] at ha
      exact (lookupT_eq_none_iff t w).mp h ha
    · intro p hp
      rcases List.mem_append.mp hp with hp | hp
      · exact hent p hp
      · rcases List.mem_singleton.mp hp with rfl
        exact ⟨rfl, hw, by simp, by simp⟩
  | some e =>
    rw [add_table_of_lookup_some h]
    constructor
    · have hkeys : (t.map fun p =>
          if p.1 = w then
            (p.1, (⟨p.2.word, insertSorted p.2.file_ids (fid + 1)⟩ : WordEntry))
          else p).map Prod.fst = t.map Prod.fst := by
        rw [List.map_map]
        apply List.map_congr_left
        intro p _
        by_cases hp : p.1 = w <;> simp [hp]
      rw [hkeys]
      exact hnd
    · intro p hp
      rw [List.mem_map] at hp
      obtain ⟨q, hq, hpq⟩ := hp
      obtain ⟨hqw, hqs, hqne, hqsort⟩ := hent q hq
      by_cases hq1 : q.1 = w
      · rw [if_pos hq1] at hpq
        cases hpq.symm
        exact ⟨hqw, hqs, insertSorted_ne_nil _ _, pairwise_insertSorted _ hqsort⟩
      · rw [if_neg hq1] at hpq
        cases hpq.symm
        exact ⟨hqw, hqs, hqne, hqsort⟩

lemma tableInv_applyEvent {t : Table} (h : TableInv t) (e : Ev) :
    TableInv (applyEvent t e) := by
  unfold applyEvent
  cases hs : shardOf e.w with
  | none => exact h
  | some i =>
    intro j
    dsimp only
    by_cases hj : j = i
    · subst hj
      rw [if_pos rfl]
      exact shardInv_add_table (h j) hs e.fid
    · rw [if_neg hj]
      exact h j

lemma tableInv_emptyTable : TableInv emptyTable := by
  intro i
  exact ⟨List.nodup_nil, fun p hp => absurd hp (List.not_mem_nil p)⟩

lemma tableInv_foldl {t : Table} (h : TableInv t) (evs : List Ev) :
    TableInv (evs.foldl applyEvent t) := by
  induction evs generalizing t with
  | nil => exact h
  | cons e evs ih => exact ih (tableInv_applyEvent h e)

lemma tableInv_runTable (evs : List Ev) : TableInv (runTable evs) :=
  tableInv_foldl tableInv_emptyTable evs

lemma evIds_append (l : List Ev) (e : Ev) (w : Word) :
    evIds (l ++ [e]) w = evIds l w ++ if e.w = w then [e.fid + 1] else [] := by
  unfold evIds
  rw [List.filter_append]
  by_cases h : e.w = w <;> simp [h]

lemma mem_evIds (evs : List Ev) (w : Word) (x : Nat) :
    x ∈ evIds evs w ↔ ∃ e ∈ evs, e.w = w ∧ x = e.fid + 1 := by
  unfold evIds
  rw [List.mem_map]
  constructor
  · rintro ⟨e, he, rfl⟩
    rw [List.mem_filter] at he
    exact ⟨e, he.1, by simpa using he.2, rfl⟩
  · rintro ⟨e, he, hw, rfl⟩
    exact ⟨e, List.mem_filter.mpr ⟨he, by simp [hw]⟩, rfl⟩

lemma runTable_append_singleton (l : List Ev) (e : Ev) :
    runTable (l ++ [e]) = applyEvent (runTable l) e := by
  unfold runTable
  rw [List.foldl_append]
  rfl

lemma lookupT_runTable (evs : List Ev) (i : Nat) (w : Word) :
    lookupT (runTable evs i) w =
      if shardOf w = some i ∧ evIds evs w ≠ [] then
        some ⟨w, (evIds evs w).foldl insertSorted []⟩
      else none := by
  induction evs using List.reverseRecOn with
  | nil => simp [runTable, emptyTable, lookupT, evIds]
  | append_singleton l e ih =>
    rw [runTable_append_singleton, evIds_append]
    unfold applyEvent
    cases hs : shardOf e.w with
    | none =>
      by_cases hew : e.w = w
      · subst hew
        rw [ih, if_neg (by rw [hs]; rintro ⟨hh, -⟩; cases hh),
          if_neg (by rw [hs]; rintro ⟨hh, -⟩; cases hh)]
      · rw [if_neg hew, List.append_nil]
        exact ih
    | some j =>
      dsimp only
      by_cases hij : i = j
      · subst hij
        rw [if_pos rfl]
        by_cases hew : e.w = w
        · subst hew
          have hif : (if e.w = e.w then [e.fid + 1] else []) = [e.fid + 1] := if_pos rfl
          rw [hif]
          by_cases hne : evIds l e.w = []
          · have hold : lookupT (runTable l i) e.w = none := by
              rw [ih, if_neg (by rw [hne]; rintro ⟨-, hh⟩; exact hh rfl)]
            rw [lookupT_add_self_none hold, hne, if_pos ⟨hs, by simp⟩]
            rfl
          · have hold : lookupT (runTable l i) e.w =
                some ⟨e.w, (evIds l e.w).foldl insertSorted []⟩ := by
              rw [ih, if_pos ⟨hs, hne⟩]
            rw [lookupT_add_self_some hold, if_pos ⟨hs, by simp⟩]
            simp only [List.foldl_append, List.foldl_cons, List.foldl_nil]
        · rw [lookupT_add_ne _ _ _ _ (fun hh => hew hh.symm), ih, if_neg hew,
            List.append_nil]
      · rw [if_neg hij, ih]
        by_cases hew : e.w = w
        · subst hew
          rw [hs] at *
          rw [if_neg (by rintro ⟨hh, -⟩; exact hij (Option.some.inj hh).symm),
            if_neg (by rintro ⟨hh, -⟩; exact hij (Option.some.inj hh).symm)]
        · rw [if_neg hew, List.append_nil]

lemma entCmp_asymm {a b : WordEntry} (h : entCmp a b = true) : entCmp b a = false := by
  unfold entCmp at h ⊢
  by_cases hl : a.file_ids.length ≠ b.file_ids.length
  · rw [if_pos hl] at h
    rw [decide_eq_true_iff] at h
    rw [if_pos (by omega)]
    exact decide_eq_false_iff_not.mpr (by omega)
  · rw [if_neg hl] at h
    rw [if_neg (by omega)]
    exact lexLt_asymm a.word b.word h

lemma entLe_total (a b : WordEntry) : entLe a b ∨ entLe b a := by
  unfold entLe
  cases hb : entCmp b a with
  | false => exact Or.inl rfl
  | true => exact Or.inr (entCmp_asymm hb)

instance : IsTotal WordEntry entLe := ⟨entLe_total⟩

lemma entLe_trans (a b c : WordEntry) (hab : entLe a b) (hbc : entLe b c) : entLe a c := by
  unfold entLe entCmp at hab hbc ⊢
  by_cases h1 : b.file_ids.length ≠ a.file_ids.length
  · rw [if_pos h1, decide_eq_false_iff_not] at hab
    by_cases h2 : c.file_ids.length ≠ b.file_ids.length
    · rw [if_pos h2, decide_eq_false_iff_not] at hbc
      rw [if_pos (by omega)]
      exact decide_eq_false_iff_not.mpr (by omega)
    · rw [if_pos (by omega)]
      exact decide_eq_false_iff_not.mpr (by omega)
  · rw [if_neg h1] at hab
    by_cases h2 : c.file_ids.length ≠ b.file_ids.length
    · rw [if_pos h2, decide_eq_false_iff_not] at hbc
      rw [if_pos (by omega)]
      exact decide_eq_false_iff_not.mpr (by omega)
    · rw [if_neg h2] at hbc
      rw [if_neg (by omega)]
      by_cases hca : lexLt c.word a.word = true
      · by_cases hab' : lexLt a.word b.word = true
        · rw [lexLt_trans c.word a.word b.word hca hab'] at hbc
          cases hbc
        · have hA : lexLt a.word b.word = false := by
            cases hx : lexLt a.word b.word
            · rfl
            · exact absurd hx hab'
          have hword : a.word = b.word := lexLt_connex a.word b.word hA hab
          rw [← hword, hca] at hbc
          cases hbc
      · cases hx : lexLt c.word a.word
        · rfl
        · exact absurd hx hca

instance : IsTrans WordEntry entLe := ⟨entLe_trans⟩

lemma entLt_of_entLe_ne {a b : WordEntry} (h : entLe a b) (hw : a.word ≠ b.word) :
    entLt a b := by
  unfold entLe at h
  unfold entLt
  unfold entCmp at h ⊢
  by_cases h1 : b.file_ids.length ≠ a.file_ids.length
  · rw [if_pos h1, decide_eq_false_iff_not] at h
    rw [if_pos (by omega)]
    exact decide_eq_true (by omega)
  · rw [if_neg h1] at h
    rw [if_neg (by omega)]
    cases hx : lexLt a.word b.word
    · exact absurd (lexLt_connex a.word b.word hx h) hw
    · rfl

instance : IsAntisymm WordEntry entLt := by
  refine ⟨fun a b h1 h2 => ?_⟩
  unfold entLt at h1 h2
  rw [entCmp_asymm h1] at h2
  cases h2

lemma sortedShard_pairwise_entLe (t : Table) (i : Nat) :
    List.Pairwise entLe (sortedShard t i) :=
  List.sorted_insertionSort entLe (shardEntries t i)

lemma sortedShard_perm (t : Table) (i : Nat) :
    (sortedShard t i).Perm (shardEntries t i) :=
  List.perm_insertionSort entLe (shardEntries t i)

lemma shardEntries_words_nodup {i : Nat} {s : Shard} (h : ShardInv i s) :
    ((s.map Prod.snd).map (fun e => e.word)).Nodup := by
  rw [List.map_map]
  have hcongr : s.map (fun p => ((fun e => e.word) ∘ Prod.snd) p) = s.map Prod.fst :=
    List.map_congr_left (fun p hp => (h.2 p hp).1)
  rw [hcongr]
  exact h.1

lemma pairwise_entLt_of_nodup_words {l : List WordEntry}
    (hle : List.Pairwise entLe l) (hw : (l.map (fun e => e.word)).Nodup) :
    List.Pairwise entLt l := by
  have hpw : List.Pairwise (fun a b : WordEntry => a.word ≠ b.word) l :=
    List.pairwise_map.mp hw
  exact (hle.and hpw).imp (fun h => entLt_of_entLe_ne h.1 h.2)

lemma mem_shard_iff_lookupT {s : Shard} (hs : (s.map Prod.fst).Nodup)
    (p : Word × WordEntry) : p ∈ s ↔ lookupT s p.1 = some p.2 := by
  constructor
  · intro hp
    exact mem_lookupT hs (by rwa [Prod.mk.eta])
  · intro hp
    have hm := lookupT_mem hp
    rwa [Prod.mk.eta] at hm

lemma sortedShard_eq_of_lookup_eq {i : Nat} {t₁ t₂ : Table}
    (h₁ : ShardInv i (t₁ i)) (h₂ : ShardInv i (t₂ i))
    (hl : ∀ w, lookupT (t₁ i) w = lookupT (t₂ i) w) :
    sortedShard t₁ i = sortedShard t₂ i := by
  have hn₁ : (t₁ i).Nodup := List.Nodup.of_map Prod.fst h₁.1
  have hn₂ : (t₂ i).Nodup := List.Nodup.of_map Prod.fst h₂.1
  have hperm : (t₁ i).Perm (t₂ i) := by
    refine (List.perm_ext_iff_of_nodup hn₁ hn₂).mpr (fun p => ?_)
    rw [mem_shard_iff_lookupT h₁.1, mem_shard_iff_lookupT h₂.1, hl]
  have hv : (shardEntries t₁ i).Perm (shardEntries t₂ i) := hperm.map Prod.snd
  have hw₁ : ((sortedShard t₁ i).map (fun e => e.word)).Nodup :=
    ((sortedShard_perm t₁ i).map (fun e => e.word)).nodup_iff.mpr
      (shardEntries_words_nodup h₁)
  have hw₂ : ((sortedShard t₂ i).map (fun e => e.word)).Nodup :=
    ((sortedShard_perm t₂ i).map (fun e => e.word)).nodup_iff.mpr
      (shardEntries_words_nodup h₂)
  have hlt₁ := pairwise_entLt_of_nodup_words (sortedShard_pairwise_entLe t₁ i) hw₁
  have hlt₂ := pairwise_entLt_of_nodup_words (sortedShard_pairwise_entLe t₂ i) hw₂
  have hp : (sortedShard t₁ i).Perm (sortedShard t₂ i) :=
    (sortedShard_perm t₁ i).trans (hv.trans (sortedShard_perm t₂ i).symm)
  exact List.eq_of_perm_of_sorted hp hlt₁ hlt₂

lemma mem_fileEvents (fid : Nat) (toks : List Word) (e : Ev) :
    e ∈ fileEvents fid toks ↔ e.fid = fid ∧ e.w ∈ indexedWords toks := by
  unfold fileEvents
  rw [List.mem_map]
  constructor
  · rintro ⟨w, hw, rfl⟩
    exact ⟨rfl, List.mem_dedup.mp hw⟩
  · rintro ⟨hfid, hw⟩
    refine ⟨e.w, List.mem_dedup.mpr hw, ?_⟩
    cases e
    cases hfid
    rfl

lemma mem_manifestEventsFrom (k : Nat) (m : Manifest) (e : Ev) :
    e ∈ manifestEventsFrom k m ↔
      ∃ (j : Nat) (toks : List Word),
        m[j]? = some (some toks) ∧ e.fid = k + j ∧ e.w ∈ indexedWords toks := by
  induction m generalizing k with
  | nil => simp [manifestEventsFrom]
  | cons f? rest ih =>
    unfold manifestEventsFrom
    rw [List.mem_append]
    cases f? with
    | none =>
      rw [ih]
      constructor
      · rintro (h | ⟨j, toks, h1, h2, h3⟩)
        · cases h
        · exact ⟨j + 1, toks, by simpa using h1, by omega, h3⟩
      · rintro ⟨j, toks, h1, h2, h3⟩
        cases j with
        | zero => simp at h1
        | succ j => exact Or.inr ⟨j, toks, by simpa using h1, by omega, h3⟩
    | some toks0 =>
      rw [mem_fileEvents, ih]
      constructor
      · rintro (⟨hfid, hw⟩ | ⟨j, toks, h1, h2, h3⟩)
        · exact ⟨0, toks0, by simp, by omega, hw⟩
        · exact ⟨j + 1, toks, by simpa using h1, by omega, h3⟩
      · rintro ⟨j, toks, h1, h2, h3⟩
        cases j with
        | zero =>
          rw [List.getElem?_cons_zero] at h1
          injection h1 with h1
          injection h1 with h1
          rw [← h1] at h3
          exact Or.inl ⟨by omega, h3⟩
        | succ j => exact Or.inr ⟨j, toks, by simpa using h1, by omega, h3⟩

lemma mem_evIds_manifest (m : Manifest) (w : Word) (x : Nat) :
    x ∈ evIds (manifestEvents m) w ↔
      ∃ (fid : Nat) (toks : List Word),
        m[fid]? = some (some toks) ∧ x = fid + 1 ∧ w ∈ indexedWords toks := by
  rw [mem_evIds]
  unfold manifestEvents
  constructor
  · rintro ⟨e, he, hew, rfl⟩
    rw [mem_manifestEventsFrom] at he
    obtain ⟨j, toks, h1, h2, h3⟩ := he
    exact ⟨j, toks, h1, by omega, hew ▸ h3⟩
  · rintro ⟨fid, toks, h1, rfl, h3⟩
    exact ⟨⟨w, fid⟩, (mem_manifestEventsFrom 0 m ⟨w, fid⟩).mpr
      ⟨fid, toks, h1, by simp, h3⟩, rfl, rfl⟩

lemma range_iff_mul (R : Nat) (hR : 0 < R) (s r : Nat) (hs : s < 26) :
    (startIdx r R ≤ s ∧ s < endIdx r R) ↔
      (r * 26 < (s + 1) * R ∧ (s + 1) * R ≤ (r + 1) * 26) := by
  unfold startIdx endIdx
  constructor
  · rintro ⟨ha, hb⟩
    have hb' := lt_min_iff.mp hb
    have ha' : r * 26 / R < s + 1 := by omega
    have hb'' : s + 1 ≤ (r + 1) * 26 / R := by omega
    exact ⟨(Nat.div_lt_iff_lt_mul hR).mp ha', (Nat.le_div_iff_mul_le hR).mp hb''⟩
  · rintro ⟨ha, hb⟩
    have ha' := (Nat.div_lt_iff_lt_mul hR).mpr ha
    have hb' := (Nat.le_div_iff_mul_le hR).mpr hb
    exact ⟨by omega, lt_min_iff.mpr ⟨hs, by omega⟩⟩

/-- Claim C8: for every reducer count R in [1,26], the shard ranges
[r*26/R, min 26 ((r+1)*26/R)) assigned to ranks r = 0..R-1 partition
[0,26): every shard index s below 26 lies in the range of exactly one
reducer rank below R — no overlap and no gap. -/
theorem claim_C8 (R : Nat) (h1 : 1 ≤ R) (h2 : R ≤ 26) (s : Nat) (hs : s < 26) :
    ∃! r, r < R ∧ startIdx r R ≤ s ∧ s < endIdx r R := by
  have hR : 0 < R := h1
  have hpos : 1 ≤ (s + 1) * R := Nat.mul_pos (by omega) hR
  have hub : (s + 1) * R ≤ 26 * R := Nat.mul_le_mul_right R (by omega)
  have hdm := Nat.div_add_mod ((s + 1) * R - 1) 26
  have hm : ((s + 1) * R - 1) % 26 < 26 := Nat.mod_lt _ (by omega)
  have hq : ((s + 1) * R - 1) / 26 * 26 ≤ (s + 1) * R - 1 := Nat.div_mul_le_self _ _
  refine ⟨((s + 1) * R - 1) / 26,
    ⟨by omega, (range_iff_mul R hR s _ hs).mpr ⟨by omega, by omega⟩⟩, ?_⟩
  rintro r' ⟨hr', hrange⟩
  rw [range_iff_mul R hR s r' hs] at hrange
  omega

/-- Claim C8 witness: with 3 reducers, shard 10 belongs to the range
of exactly one reducer rank. -/
theorem claim_C8_witness :
    ∃! r, r < 3 ∧ startIdx r 3 ≤ 10 ∧ 10 < endIdx r 3 :=
  claim_C8 3 (by decide) (by decide) 10 (by decide)

/-- Claim C9: starting from a queue holding every file index in
[0, n) exactly once, each step of any interleaving removes the head of
the queue under the lock; a dequeue is possible exactly while the queue is
nonempty (so the drained phase ends with an empty queue); no index is
duplicated or lost: in every reachable state the queue plus the
dequeue log is a permutation of the initial indices and the log has no
duplicates, and once the queue is empty every index below n was
dequeued exactly once across all workers combined. -/
theorem claim_C9 (n : Nat) (s : QState) (h : QReach (initQ n) s) :
    (∀ s₁ s₂, QStep s₁ s₂ → ∃ wk x, s₁.q = x :: s₂.q ∧ s₂.done = (wk, x) :: s₁.done) ∧
    ((∀ s₂, ¬ QStep s s₂) ↔ s.q = []) ∧
    (s.q ++ s.done.map Prod.snd).Perm (List.range n) ∧
    (s.done.map Prod.snd).Nodup ∧
    (s.q = [] → ∀ x, (s.done.map Prod.snd).count x = if x < n then 1 else 0) := by
  have hinv : (s.q ++ s.done.map Prod.snd).Perm (List.range n) ∧
      (s.done.map Prod.snd).Nodup := by
    induction h with
    | refl => exact ⟨by simp [initQ], by simp [initQ]⟩
    | tail hsteps hstep ih =>
      obtain ⟨ih1, ih2⟩ := ih
      cases hstep with
      | dequeue wk x q d =>
        simp only [List.map_cons] at *
        constructor
        · exact List.perm_middle.trans ih1
        · have hnd : (x :: (q ++ d.map Prod.snd)).Nodup := by
            rw [← List.cons_append]
            exact ih1.nodup_iff.mpr (List.nodup_range n)
          rw [List.nodup_cons] at hnd ⊢
          exact ⟨fun hmem => hnd.1 (List.mem_append_right q hmem), ih2⟩
  refine ⟨?_, ?_, hinv.1, hinv.2, ?_⟩
  · intro s₁ s₂ hstep
    cases hstep with
    | dequeue wk x q d => exact ⟨wk, x, rfl, rfl⟩
  · constructor
    · intro hnone
      obtain ⟨qq, dd⟩ := s
      cases qq with
      | nil => rfl
      | cons x q => exact absurd (QStep.dequeue 0 x q dd) (hnone _)
    · intro hq s₂ hstep
      cases hstep with
      | dequeue wk x q d => cases hq
  · intro hq x
    have hperm : (s.done.map Prod.snd).Perm (List.range n) := by
      have := hinv.1
      rwa [hq, List.nil_append] at this
    rw [hperm.count_eq]
    by_cases hx : x < n
    · rw [if_pos hx]
      exact List.count_eq_one_of_mem (List.nodup_range n) (List.mem_range.mpr hx)
    · rw [if_neg hx]
      exact List.count_eq_zero.mpr (fun hmem => hx (List.mem_range.mp hmem))

/-- Claim C9 witness: a concrete two-worker interleaving on a
two-file queue, checked through the theorem. -/
theorem claim_C9_witness : (([((7 : Nat), (1 : Nat)), (5, 0)]).map Prod.snd).Nodup := by
  have htrace : QReach (initQ 2) ⟨[], [(7, 1), (5, 0)]⟩ :=
    Relation.ReflTransGen.head (QStep.dequeue 5 0 [1] [])
      (Relation.ReflTransGen.single (QStep.dequeue 7 1 [] [(5, 0)]))
  exact (claim_C9 2 ⟨[], [(7, 1), (5, 0)]⟩ htrace).2.2.2.1

/-- Claim C6: add_table preserves the invariant that every stored id
list is strictly increasing (hence duplicate-free), and consequently
every entry of every emitted artifact has a nonempty strictly
increasing id list. -/
theorem claim_C6 :
    (∀ t w fid, IdsSorted t → IdsSorted (add_table t w fid)) ∧
    (∀ evs i, ∀ e ∈ sortedShard (runTable evs) i,
      e.file_ids ≠ [] ∧ List.Pairwise (· < ·) e.file_ids) := by
  constructor
  · intro t w fid hinv p hp
    cases h : lookupT t w with
    | none =>
      rw [add_table_of_lookup_none h] at hp
      rcases List.mem_append.mp hp with hp | hp
      · exact hinv p hp
      · rcases List.mem_singleton.mp hp with rfl
        simp
    | some e =>
      rw [add_table_of_lookup_some h] at hp
      rw [List.mem_map] at hp
      obtain ⟨q, hq, hpq⟩ := hp
      by_cases hq1 : q.1 = w
      · rw [if_pos hq1] at hpq
        rw [← hpq]
        exact pairwise_insertSorted _ (hinv q hq)
      · rw [if_neg hq1] at hpq
        rw [← hpq]
        exact hinv q hq
  · intro evs i e he
    have hmem : e ∈ shardEntries (runTable evs) i :=
      (sortedShard_perm (runTable evs) i).mem_iff.mp he
    unfold shardEntries at hmem
    rw [List.mem_map] at hmem
    obtain ⟨p, hp, rfl⟩ := hmem
    have hfacts := (tableInv_runTable evs i).2 p hp
    exact ⟨hfacts.2.2.1, hfacts.2.2.2⟩

/-- Claim C6 witness: the preservation half applied at a concrete
shard and call. -/
theorem claim_C6_witness :
    IdsSorted (add_table [(['a'], ⟨['a'], [2]⟩)] ['a'] 0) :=
  claim_C6.1 [(['a'], ⟨['a'], [2]⟩)] ['a'] 0 (by
    intro p hp
    rcases List.mem_singleton.mp hp with rfl
    decide)

lemma letterIdx_nil : letterIdx [] = -1 := rfl

lemma shardOf_eq_some_iff (w : Word) (i : Nat) :
    shardOf w = some i ↔
      ∃ c rest, w = c :: rest ∧ c.toNat = 97 + i ∧ i < 26 := by
  cases w with
  | nil =>
    unfold shardOf
    rw [letterIdx_nil, if_neg (by omega)]
    constructor
    · intro hh
      cases hh
    · rintro ⟨c, rest, heq, -, -⟩
      cases heq
  | cons c rest =>
    unfold shardOf
    rw [letterIdx_cons]
    by_cases h : (0 : Int) ≤ (c.toNat : Int) - 97 ∧ (c.toNat : Int) - 97 < 26
    · rw [if_pos h]
      simp only [Option.some.injEq]
      constructor
      · intro hi
        exact ⟨c, rest, rfl, by omega, by omega⟩
      · rintro ⟨c', rest', heq, hc, hi⟩
        injection heq with h1 h2
        rw [h1]
        omega
    · rw [if_neg h]
      constructor
      · intro hh
        cases hh
      · rintro ⟨c', rest', heq, hc, hi⟩
        injection heq with h1 h2
        rw [h1] at h
        exact absurd ⟨by omega, by omega⟩ h

/-- Claim C10: every operation preserves shard-table key consistency —
each stored entry repeats its key as its word field, and each key lives
in the shard selected by its first letter (key head character code
97 + shard index); the table after any run of merge events satisfies
it. -/
theorem claim_C10 :
    (∀ t e, KeyInv t → KeyInv (applyEvent t e)) ∧
    (∀ evs, KeyInv (runTable evs)) := by
  have hstep : ∀ t e, KeyInv t → KeyInv (applyEvent t e) := by
    intro t e hk
    unfold applyEvent
    cases hs : shardOf e.w with
    | none => exact hk
    | some i =>
      intro j
      dsimp only
      by_cases hj : j = i
      · subst hj
        rw [if_pos rfl]
        intro p hp
        cases h : lookupT (t j) e.w with
        | none =>
          rw [add_table_of_lookup_none h] at hp
          rcases List.mem_append.mp hp with hp | hp
          · exact hk j p hp
          · rcases List.mem_singleton.mp hp with rfl
            exact ⟨rfl, (shardOf_eq_some_iff e.w j).mp hs⟩
        | some e0 =>
          rw [add_table_of_lookup_some h] at hp
          rw [List.mem_map] at hp
          obtain ⟨q, hq, hpq⟩ := hp
          obtain ⟨hqw, hqrest⟩ := hk j q hq
          by_cases hq1 : q.1 = e.w
          · rw [if_pos hq1] at hpq
            cases hpq.symm
            exact ⟨hqw, hqrest⟩
          · rw [if_neg hq1] at hpq
            cases hpq.symm
            exact ⟨hqw, hqrest⟩
      · rw [if_neg hj]
        exact hk j
  refine ⟨hstep, ?_⟩
  intro evs
  have hfold : ∀ t, KeyInv t → KeyInv (evs.foldl applyEvent t) := by
    induction evs with
    | nil => exact fun t h => h
    | cons e evs ih => exact fun t h => ih (applyEvent t e) (hstep t e h)
  exact hfold emptyTable (fun i p hp => absurd hp (List.not_mem_nil p))

/-- Claim C10 witness: the preservation half applied to one concrete
merge event on the empty table. -/
theorem claim_C10_witness : KeyInv (applyEvent emptyTable ⟨['b'], 3⟩) :=
  claim_C10.1 emptyTable ⟨['b'], 3⟩ (fun i p hp => absurd hp (List.not_mem_nil p))

lemma reducerLoop_mem (t : Table) (sOk : Nat → Bool) :
    ∀ (n i : Nat) (p : Nat × List WordEntry),
      p ∈ reducerLoop t sOk i n ↔
        ∃ k, k < n ∧ p = (i + k, sortedShard t (i + k)) ∧
          ∀ j, j ≤ k → sOk (i + j) = true := by
  intro n
  induction n with
  | zero =>
    intro i p
    simp [reducerLoop]
  | succ n ih =>
    intro i p
    rw [show reducerLoop t sOk i (n + 1) =
      if sOk i then (i, sortedShard t i) :: reducerLoop t sOk (i + 1) n else [] from rfl]
    by_cases h : sOk i
    · rw [if_pos h, List.mem_cons, ih]
      constructor
      · rintro (rfl | ⟨k, hk, rfl, hall⟩)
        · refine ⟨0, by omega, by simp, ?_⟩
          intro j hj
          have hj0 : j = 0 := by omega
          subst hj0
          simpa using h
        · refine ⟨k + 1, by omega, ?_, ?_⟩
          · rw [show i + (k + 1) = i + 1 + k by omega]
          · intro j hj
            cases j with
            | zero => simpa using h
            | succ j =>
              rw [show i + (j + 1) = i + 1 + j by omega]
              exact hall j (by omega)
      · rintro ⟨k, hk, rfl, hall⟩
        cases k with
        | zero => exact Or.inl (by simp)
        | succ k =>
          refine Or.inr ⟨k, by omega, ?_, ?_⟩
          · rw [show i + 1 + k = i + (k + 1) by omega]
          · intro j hj
            rw [show i + 1 + j = i + (j + 1) by omega]
            exact hall (j + 1) (by omega)
    · rw [if_neg h]
      simp only [List.not_mem_nil, false_iff]
      rintro ⟨k, hk, rfl, hall⟩
      have h0 := hall 0 (by omega)
      rw [Nat.add_zero] at h0
      exact h h0

/-- Claim C1 (amended): a reducer emits exactly the unbroken initial
run of its shard range on which sink creation succeeds — shard s of
the range is emitted iff every sink from the start of the range up to
s could be created; at the first failure the reducer logs and returns,
abandoning that shard and all later shards of its range (it does not
continue with them), while shards before the failure are unaffected. -/
theorem claim_C1 (t : Table) (sinkOk : Nat → Bool) (r R : Nat)
    (p : Nat × List WordEntry) :
    p ∈ reducerRun t sinkOk r R ↔
      ∃ k, k < endIdx r R - startIdx r R ∧
        p = (startIdx r R + k, sortedShard t (startIdx r R + k)) ∧
        ∀ j, j ≤ k → sinkOk (startIdx r R + j) = true :=
  reducerLoop_mem t sinkOk (endIdx r R - startIdx r R) (startIdx r R) p

/-- Claim C1 counterexample: reducer rank 0 of 2 owns shards 0..12;
with a sink oracle failing only for shard 0, the run emits nothing at
all — in particular shard 12, whose sink is creatable and which lies
in the range, is abandoned, refuting that the reducer continues with
the remaining shards after a failure. -/
theorem claim_C1_counterexample :
    reducerRun emptyTable (fun i => decide (i ≠ 0)) 0 2 = [] ∧
    decide ((12 : Nat) ≠ 0) = true ∧ startIdx 0 2 ≤ 12 ∧ 12 < endIdx 0 2 := by
  decide

lemma bucket_countP (i j : Nat) (ws : List Word) :
    (ws.flatMap (fun w => [MAct.take j, MAct.upd w j, MAct.release j])).countP
      (fun a => a = MAct.take i) = if j = i then ws.length else 0 := by
  induction ws with
  | nil => simp
  | cons w ws ih =>
    rw [List.flatMap_cons, List.countP_append, ih]
    by_cases h : j = i
    · subst h
      simp [List.countP_cons]
      omega
    · simp [List.countP_cons, h]

lemma trace_count_aux (toks : List Word) (i : Nat) (L : List Nat) :
    (L.flatMap (fun j => (bucketWords toks j).flatMap
        (fun w => [MAct.take j, MAct.upd w j, MAct.release j]))).countP
      (fun a => a = MAct.take i) =
      (L.count i) * (bucketWords toks i).length := by
  induction L with
  | nil => simp
  | cons j L ih =>
    rw [List.flatMap_cons, List.countP_append, bucket_countP, ih, List.count_cons]
    by_cases h : j = i
    · subst h
      simp only [if_pos rfl, beq_self_eq_true, if_true]
      ring
    · simp only [if_neg h, beq_iff_eq, if_neg h]
      ring

lemma bucketWords_nil_of_not_mem (toks : List Word) (i : Nat)
    (h : i ∉ bucketLetters toks) : bucketWords toks i = [] := by
  unfold bucketWords
  rw [List.filter_eq_nil_iff]
  intro w hw
  simp only [decide_eq_true_eq]
  intro hsw
  apply h
  unfold bucketLetters
  rw [List.mem_dedup]
  exact List.mem_filterMap.mpr ⟨w, hw, hsw⟩

/-- Claim C2 (amended): merging one file into the shard table acquires
each shard lock once per distinct word of the file routed to that
shard — one add_table call, i.e. one acquire/update/release triple,
per (letter, distinct word) pair — not once per distinct letter. -/
theorem claim_C2 (toks : List Word) (i : Nat) :
    lockCount (mergeTrace toks) i = (bucketWords toks i).length := by
  unfold lockCount mergeTrace
  rw [trace_count_aux]
  by_cases h : i ∈ bucketLetters toks
  · rw [List.count_eq_one_of_mem (by unfold bucketLetters; exact List.nodup_dedup _) h,
      Nat.one_mul]
  · rw [List.count_eq_zero.mpr h, Nat.zero_mul,
      bucketWords_nil_of_not_mem toks i h]
    rfl

/-- Claim C2 counterexample: the file with raw tokens ab and ac
touches the single distinct letter a, yet the merge loop acquires
shard 0's lock twice (once per distinct word), refuting one lock
acquisition per distinct letter. -/
theorem claim_C2_counterexample :
    bucketLetters [['a', 'b'], ['a', 'c']] = [0] ∧
    lockCount (mergeTrace [['a', 'b'], ['a', 'c']]) 0 = 2 := by
  decide

lemma artifact_entry_lookup {m : Manifest} {i : Nat} {e : WordEntry}
    (he : e ∈ artifact m i) :
    lookupT (runTable (manifestEvents m) i) e.word = some e := by
  unfold artifact at he
  have hmem : e ∈ shardEntries (runTable (manifestEvents m)) i :=
    (sortedShard_perm _ i).mem_iff.mp he
  unfold shardEntries at hmem
  rw [List.mem_map] at hmem
  obtain ⟨p, hp, rfl⟩ := hmem
  have hinv := tableInv_runTable (manifestEvents m) i
  rw [(hinv.2 p hp).1]
  exact mem_lookupT hinv.1 (by rwa [Prod.mk.eta])

lemma word_in_artifact_iff (m : Manifest) (w : Word) (i : Nat) :
    (∃ e ∈ artifact m i, e.word = w) ↔
      ∃ e, lookupT (runTable (manifestEvents m) i) w = some e := by
  constructor
  · rintro ⟨e, he, rfl⟩
    exact ⟨e, artifact_entry_lookup he⟩
  · rintro ⟨e, he⟩
    have hmem := lookupT_mem he
    refine ⟨e, ?_, ?_⟩
    · unfold artifact
      apply (sortedShard_perm _ i).mem_iff.mpr
      unfold shardEntries
      exact List.mem_map.mpr ⟨(w, e), hmem, rfl⟩
    · rw [lookupT_runTable] at he
      split_ifs at he with hc
      injection he with he
      rw [← he]

/-- Claim C3: the run is deterministic — for any two total orders in
which the add_table calls of a manifest can be interleaved (any mapper
count and any dequeue order yield a permutation of the same merge
events), every one of the emitted artifacts is identical line for
line; and the id stored for a word is always 1 + the 0-based manifest
position of the file containing it, independent of discovery order. -/
theorem claim_C3 (m : Manifest) (evs₁ evs₂ : List Ev)
    (h₁ : evs₁.Perm (manifestEvents m)) (h₂ : evs₂.Perm (manifestEvents m)) :
    (∀ i, outLines (runTable evs₁) i = outLines (runTable evs₂) i) ∧
    (∀ (w : Word) (e : WordEntry) (i : Nat),
      lookupT (runTable evs₁ i) w = some e →
      ∀ x, x ∈ e.file_ids ↔
        ∃ (fid : Nat) (toks : List Word),
          m[fid]? = some (some toks) ∧ x = fid + 1 ∧ w ∈ fileWords toks) := by
  have hp : evs₁.Perm evs₂ := h₁.trans h₂.symm
  have hids : ∀ w : Word, (evIds evs₁ w).Perm (evIds evs₂ w) :=
    fun w => (hp.filter _).map _
  have hlookup : ∀ i w, lookupT (runTable evs₁ i) w = lookupT (runTable evs₂ i) w := by
    intro i w
    rw [lookupT_runTable, lookupT_runTable]
    have hne : (evIds evs₁ w = []) ↔ (evIds evs₂ w = []) := by
      constructor
      · intro hb
        have hthis := (hids w).symm
        rw [hb] at hthis
        exact List.perm_nil.mp hthis
      · intro hb
        have hthis := hids w
        rw [hb] at hthis
        exact List.perm_nil.mp hthis
    by_cases hc : shardOf w = some i ∧ evIds evs₁ w ≠ []
    · rw [if_pos hc, if_pos ⟨hc.1, fun hh => hc.2 (hne.mpr hh)⟩,
        foldl_insertSorted_eq_of_perm (hids w)]
    · rw [if_neg hc, if_neg (fun hcon => hc ⟨hcon.1, fun hh => hcon.2 (hne.mp hh)⟩)]
  constructor
  · intro i
    unfold outLines
    rw [sortedShard_eq_of_lookup_eq (tableInv_runTable evs₁ i)
      (tableInv_runTable evs₂ i) (fun w => hlookup i w)]
  · intro w e i hlk
    rw [lookupT_runTable] at hlk
    by_cases hc : shardOf w = some i ∧ evIds evs₁ w ≠ []
    · rw [if_pos hc] at hlk
      injection hlk with hlk
      intro x
      rw [← hlk]
      show x ∈ (evIds evs₁ w).foldl insertSorted [] ↔ _
      rw [mem_foldl_insertSorted]
      have hmm : x ∈ evIds evs₁ w ↔ x ∈ evIds (manifestEvents m) w :=
        ((h₁.filter _).map _).mem_iff
      constructor
      · rintro (hx | hx)
        · exact absurd hx (List.not_mem_nil x)
        · obtain ⟨fid, toks, ha, hb, hcw⟩ := (mem_evIds_manifest m w x).mp (hmm.mp hx)
          rw [indexedWords_eq_fileWords] at hcw
          exact ⟨fid, toks, ha, hb, hcw⟩
      · rintro ⟨fid, toks, ha, hb, hcw⟩
        refine Or.inr (hmm.mpr ((mem_evIds_manifest m w x).mpr
          ⟨fid, toks, ha, hb, ?_⟩))
        rw [indexedWords_eq_fileWords]
        exact hcw
    · rw [if_neg hc] at hlk
      cases hlk

/-- Claim C3 witness: two interleavings of the merge events of a
two-file manifest produce the same artifact for letter a. -/
theorem claim_C3_witness :
    outLines (runTable [⟨['b'], 1⟩, ⟨['a'], 0⟩]) 0 =
      outLines (runTable [⟨['a'], 0⟩, ⟨['b'], 1⟩]) 0 :=
  (claim_C3 [some [['a']], some [['b']]] [⟨['b'], 1⟩, ⟨['a'], 0⟩]
    [⟨['a'], 0⟩, ⟨['b'], 1⟩] (by decide) (by decide)).1 0

/-- Claim C4: a word appears in artifact i (i below 26) iff it occurs,
after cleaning, in some successfully opened input file and i is the
shard of its first letter — so each such word appears in exactly the
one artifact matching its first letter and in no other; moreover every
cleaned word of an opened file does select a shard below 26. -/
theorem claim_C4 (m : Manifest) (w : Word) (i : Nat) (hi : i < 26) :
    ((∃ e ∈ artifact m i, e.word = w) ↔ (appearsIn m w ∧ shardOf w = some i)) ∧
    (appearsIn m w → ∃ j, j < 26 ∧ shardOf w = some j) := by
  have htotal : appearsIn m w → ∃ j, j < 26 ∧ shardOf w = some j := by
    rintro ⟨fid, toks, hopen, hw⟩
    exact shardOf_of_fileWords hw
  refine ⟨?_, htotal⟩
  rw [word_in_artifact_iff]
  constructor
  · rintro ⟨e, he⟩
    rw [lookupT_runTable] at he
    split_ifs at he with hc
    obtain ⟨hs, hne⟩ := hc
    obtain ⟨x, hx⟩ := List.exists_mem_of_ne_nil _ hne
    obtain ⟨fid, toks, hopen, hxe, hw⟩ := (mem_evIds_manifest m w x).mp hx
    rw [indexedWords_eq_fileWords] at hw
    exact ⟨⟨fid, toks, hopen, hw⟩, hs⟩
  · rintro ⟨⟨fid, toks, hopen, hw⟩, hs⟩
    have hx : (fid + 1) ∈ evIds (manifestEvents m) w :=
      (mem_evIds_manifest m w (fid + 1)).mpr
        ⟨fid, toks, hopen, rfl, by rw [indexedWords_eq_fileWords]; exact hw⟩
    refine ⟨⟨w, (evIds (manifestEvents m) w).foldl insertSorted []⟩, ?_⟩
    rw [lookupT_runTable, if_pos ⟨hs, List.ne_nil_of_mem hx⟩]

/-- Claim C4 witness: the word cat of the single opened file lands in
artifact 2 (letter c). -/
theorem claim_C4_witness :
    ∃ e ∈ artifact [some [['c', 'a', 't']]] 2, e.word = ['c', 'a', 't'] :=
  ((claim_C4 [some [['c', 'a', 't']]] ['c', 'a', 't'] 2 (by decide)).1).mpr
    ⟨⟨0, [['c', 'a', 't']], rfl, by decide⟩, by decide⟩

/-- Claim C5: if word w occurs (after cleaning) in the opened file at
manifest position fid — however many times — then in the artifact of
its letter, the entry for w carries the id fid + 1 exactly once. -/
theorem claim_C5 (m : Manifest) (w : Word) (fid : Nat) (toks : List Word)
    (hf : m[fid]? = some (some toks)) (hw : w ∈ fileWords toks) :
    ∃ i, i < 26 ∧ shardOf w = some i ∧
      (∃ e ∈ artifact m i, e.word = w) ∧
      (∀ e ∈ artifact m i, e.word = w → e.file_ids.count (fid + 1) = 1) := by
  obtain ⟨i, hi, hs⟩ := shardOf_of_fileWords hw
  have hx : (fid + 1) ∈ evIds (manifestEvents m) w :=
    (mem_evIds_manifest m w (fid + 1)).mpr
      ⟨fid, toks, hf, rfl, by rw [indexedWords_eq_fileWords]; exact hw⟩
  have hne := List.ne_nil_of_mem hx
  have hlook : lookupT (runTable (manifestEvents m) i) w =
      some ⟨w, (evIds (manifestEvents m) w).foldl insertSorted []⟩ := by
    rw [lookupT_runTable, if_pos ⟨hs, hne⟩]
  refine ⟨i, hi, hs, (word_in_artifact_iff m w i).mpr ⟨_, hlook⟩, ?_⟩
  intro e he hew
  have hlk := artifact_entry_lookup he
  rw [hew, hlook] at hlk
  injection hlk with hlk
  rw [← hlk]
  show List.count (fid + 1) ((evIds (manifestEvents m) w).foldl insertSorted []) = 1
  exact List.count_eq_one_of_mem (nodup_foldl_insertSorted _)
    ((mem_foldl_insertSorted _ _ _).mpr (Or.inr hx))

/-- Claim C5 witness: dog occurs twice in the file at position 0; its
emitted entry carries id 1 exactly once. -/
theorem claim_C5_witness :
    ∃ i, i < 26 ∧ shardOf ['d', 'o', 'g'] = some i ∧
      (∃ e ∈ artifact [some [['d', 'o', 'g'], ['d', 'o', 'g']]] i,
        e.word = ['d', 'o', 'g']) ∧
      (∀ e ∈ artifact [some [['d', 'o', 'g'], ['d', 'o', 'g']]] i,
        e.word = ['d', 'o', 'g'] → e.file_ids.count (0 + 1) = 1) :=
  claim_C5 [some [['d', 'o', 'g'], ['d', 'o', 'g']]] ['d', 'o', 'g'] 0
    [['d', 'o', 'g'], ['d', 'o', 'g']] rfl (by decide)

lemma entLt_disj {a b : WordEntry} (h : entLt a b) :
    b.file_ids.length < a.file_ids.length ∨
      (a.file_ids.length = b.file_ids.length ∧ lexLt a.word b.word = true) := by
  unfold entLt entCmp at h
  by_cases h1 : a.file_ids.length ≠ b.file_ids.length
  · rw [if_pos h1, decide_eq_true_iff] at h
    exact Or.inl h
  · rw [if_neg h1] at h
    exact Or.inr ⟨by omega, h⟩

/-- Claim C7: within each emitted artifact, any earlier entry beats
any later one strictly — more distinct file ids, or equally many and a
lexicographically smaller word; in particular adjacent entries are
strictly ordered, and the order is total on the artifact because the
words within one shard are pairwise distinct. -/
theorem claim_C7 (m : Manifest) (i : Nat) :
    List.Pairwise (fun a b : WordEntry =>
      b.file_ids.length < a.file_ids.length ∨
      (a.file_ids.length = b.file_ids.length ∧ lexLt a.word b.word = true))
      (artifact m i) ∧
    List.Pairwise (fun a b : WordEntry => a.word ≠ b.word) (artifact m i) := by
  have hinv := tableInv_runTable (manifestEvents m) i
  have hw : ((artifact m i).map (fun e => e.word)).Nodup := by
    unfold artifact
    exact ((sortedShard_perm _ i).map _).nodup_iff.mpr (shardEntries_words_nodup hinv)
  have hle : List.Pairwise entLe (artifact m i) := by
    unfold artifact
    exact sortedShard_pairwise_entLe _ i
  have hlt := pairwise_entLt_of_nodup_words hle hw
  exact ⟨hlt.imp (fun h => entLt_disj h), List.pairwise_map.mp hw⟩

end InvIndex
